import Mathlib

/-!
Verification of TinyTRL core components against their specification.

This development embeds, in Lean, the arithmetic of capacity growth
(TinyTRL_Math.inl), the growable array and the sorted flat containers
(TinyTRL_Containers.inl / .h), the short/long string type
(TinyTRL_Strings.cpp / .h) and the generic buffered stream copy
(TinyTRL_Streams.cpp), and proves properties of the embedded code.

Conventions of the embedding:
- machine integers of the 64-bit build are modelled as Nat or Int with
  explicit bounds where they matter; all loops of the C++ code are
  embedded either by well-founded recursion on the loop measure or with
  an explicit fuel argument large enough for the loop (the C++ loops
  iterate strictly fewer times);
- memory allocation is modelled as always succeeding; allocation-failure
  paths are therefore not reachable in the model (the claims below do
  not concern allocation failure);
- raw byte buffers are modelled as total functions from index to byte.
-/

namespace TRL

/-! ## Capacity arithmetic (TinyTRL_Math.inl) -/

namespace math

/-- Source: math::isPowerOfTwo.  `(value >= 1) && !(value & (value - 1))`. -/
def isPowerOfTwo (value : Nat) : Bool :=
  decide (1 ≤ value) && decide (value &&& (value - 1) = 0)

/-- Source: the `while (!isPowerOfTwo(tempValue)) tempValue &= tempValue - 1;`
loop shared by math::floorPowerOfTwo and math::ceilPowerOfTwo.  The loop
clears the lowest set bit until a power of two remains; `fuel` bounds the
number of iterations (the value strictly decreases at every step, so any
fuel at least the initial value is sufficient). -/
def clearLowestLoop : Nat → Nat → Nat
  | 0, v => v
  | fuel + 1, v => if isPowerOfTwo v then v else clearLowestLoop fuel (v &&& (v - 1))

/-- Source: math::floorPowerOfTwo. -/
def floorPowerOfTwo (value : Nat) : Nat :=
  if 2 < value then clearLowestLoop value value else value

/-- Source: math::ceilPowerOfTwo.  Doubles the value and then clears low bits
until a power of two remains. -/
def ceilPowerOfTwo (value : Nat) : Nat :=
  if 2 < value && !isPowerOfTwo value then
    clearLowestLoop (2 * value) (value <<< 1)
  else value

/-- Source: math::computeNextCapacity (one-argument variant). -/
def computeNextCapacity (capacity : Nat) : Nat :=
  if capacity < 16 || !isPowerOfTwo capacity then
    let nextCapacity := ceilPowerOfTwo (capacity + 1)
    if nextCapacity - capacity < capacity / 3 then
      nextCapacity + nextCapacity / 2
    else
      nextCapacity
  else
    capacity + capacity / 2

/-- Source: math::computeNextCapacity (three-argument variant). -/
def computeNextCapacity3 (capacity currentCapacity initialCapacity : Nat) : Nat :=
  if currentCapacity ≠ initialCapacity then
    let capacityNext := computeNextCapacity currentCapacity
    if capacityNext < capacity then
      if !isPowerOfTwo capacity then
        let capacityPred := floorPowerOfTwo capacity
        let capacityPred := capacityPred + capacityPred / 2
        if capacity ≤ capacityPred then capacityPred else ceilPowerOfTwo capacity
      else capacity
    else capacityNext
  else capacity

end math

/-! ## Containers (TinyTRL_Containers.h / .inl)

The 64-bit build is modelled: Containers::Length is int64_t, MaxLength is
INT64_MAX.  The live elements of an Array are modelled as a Lean list, the
allocated capacity as a Nat and the pollute bit as a Bool; memory
allocation is modelled as always succeeding, so the boolean results of
reallocate and of the capacity-growing call are always true and the
allocation-failure branches of callers are unreachable. -/

namespace Containers

/-- Source: Containers::MaxLength (64-bit build, INT64_MAX). -/
def MaxLength : Nat := 2 ^ 63 - 1

/-- Source: Containers::NotFound. -/
def NotFound : Int := -1

/-- Source: math::saturate, written for Length (Int) values. -/
def saturate (value minLimit maxLimit : Int) : Int :=
  let temp := if minLimit < value then value else minLimit
  if temp < maxLimit then temp else maxLimit

/-- Source: Containers::computeCapacity.  The two-argument call of
math::computeNextCapacity uses the default initial capacity 0. -/
def computeCapacity (targetCapacity currentCapacity : Nat) : Nat :=
  if targetCapacity < math.floorPowerOfTwo MaxLength then
    math.computeNextCapacity3 targetCapacity currentCapacity 0
  else targetCapacity

end Containers

/-- Model of Array of Element: live elements, allocated capacity (slot
count, without the pollute bit that the C++ packs into the same word) and
the pollute bit. -/
structure ArrayM (α : Type) where
  elems : List α
  cap : Nat
  pol : Bool

namespace ArrayM

/-- Source: Array::length. -/
def length (a : ArrayM α) : Nat := a.elems.length

/-- Source: Array::pollute. -/
def pollute (a : ArrayM α) : ArrayM α := { a with pol := true }

/-- Source: Array::operator bool (true when not polluted). -/
def toBool (a : ArrayM α) : Bool := !a.pol

/-- Source: Array::capacity(Length).  Grows the allocation through
Containers::computeCapacity when the current capacity is insufficient;
the reallocation is modelled as succeeding, so the boolean result of the
source function is constantly true and is omitted. -/
def capacityReq (a : ArrayM α) (capacity0 : Int) : ArrayM α :=
  let capacity := (max capacity0 0).toNat
  if a.cap < capacity then { a with cap := Containers.computeCapacity capacity a.cap }
  else a

/-- Source: Array::elementAdd / Array::add.  Returns the new index of the
element, or NotFound on overflow (the allocation never fails in the
model). -/
def add (a : ArrayM α) (element : α) : Int × ArrayM α :=
  let length := a.elems.length
  if length < Containers.MaxLength then
    let a1 := a.capacityReq (length + 1)
    ((length : Int), { a1 with elems := a1.elems ++ [element] })
  else (Containers.NotFound, a)

/-- Source: Array::addp. -/
def addp (a : ArrayM α) (element : α) : ArrayM α :=
  let r := a.add element
  if r.1 = Containers.NotFound then r.2.pollute else r.2

/-- Source: Array::elementInsert / Array::insert.  The element-shifting
loops of both branches of the source place the new element at the
saturated index with the tail shifted one slot towards the end, modelled
as a list splice; the reallocating branch additionally grows the
capacity. -/
def insert (a : ArrayM α) (index0 : Int) (element : α) : Bool × ArrayM α :=
  let length := a.elems.length
  if length < Containers.MaxLength then
    let index := (Containers.saturate index0 0 (length : Int)).toNat
    if length + 1 ≤ a.cap then
      (true, { a with elems := a.elems.take index ++ element :: a.elems.drop index })
    else
      let nextCapacity := Containers.computeCapacity (length + 1) a.cap
      (true, { a with cap := nextCapacity,
                      elems := a.elems.take index ++ element :: a.elems.drop index })
  else (false, a)

/-- Source: Array::insertp. -/
def insertp (a : ArrayM α) (index : Int) (element : α) : ArrayM α :=
  let r := a.insert index element
  if !r.1 then r.2.pollute else r.2

/-- Source: Array::erase(Length) (single index).  The destruct-and-shift
loop removes exactly the element at the index. -/
def eraseAt (a : ArrayM α) (index : Int) : Bool × ArrayM α :=
  let length : Int := a.elems.length
  if 0 ≤ index ∧ index < length then
    (true, { a with elems := a.elems.eraseIdx index.toNat })
  else (false, a)

/-- Source: Array::erase(Length start, Length count).  A negative start is
folded into the count; the destruct-and-shift loops remove the clamped
range [start, right). -/
def eraseRange (a : ArrayM α) (start0 count0 : Int) : Bool × ArrayM α :=
  let length : Int := a.elems.length
  if length ≠ 0 then
    let start := if start0 < 0 then (0 : Int) else start0
    let count := if start0 < 0 then count0 + start0 else count0
    if start ≥ length ∨ count ≤ 0 then (false, a)
    else
      let right := min (start + count) length
      (true, { a with elems := a.elems.take start.toNat ++ a.elems.drop right.toNat })
  else (false, a)

/-- Source: Array constructor from an initializer list. -/
def ofList (elements : List α) : ArrayM α :=
  let length := min elements.length Containers.MaxLength
  let a : ArrayM α :=
    if length ≠ 0 then { elems := elements.take length, cap := length, pol := false }
    else { elems := [], cap := 0, pol := false }
  if Containers.MaxLength < elements.length then a.pollute else a

/-- Source: Array::populate.  The construction loop writes every copy to
the slot at offset `length` (see populateWriteOffsets) and never advances
`_length`, so the live elements are unchanged; the declared return type is
bool but the source returns the Length value `length` on the success path
and NotFound on the failure paths, so the converted boolean result is
`length != 0` respectively `NotFound != 0` (true).  Allocation succeeds in
the model. -/
def populate (a : ArrayM α) (count0 : Int) (value : α) : Bool × ArrayM α :=
  let count := max count0 0
  let length : Int := a.elems.length
  if length ≤ (Containers.MaxLength : Int) - count then
    let a1 := a.capacityReq (length + count)
    (decide (length ≠ 0), a1)
  else (decide (Containers.NotFound ≠ 0), a)

/-- Source: the loop body of Array::populate, `new (_data + length)
Element(value)`, executed `count` times; the list records the buffer
offset written by each iteration. -/
def populateWriteOffsets (length : Nat) : Nat → List Nat
  | 0 => []
  | count + 1 => populateWriteOffsets length count ++ [length]

/-- Source: Array constructor Array(Length length, Element const& value). -/
def mkFill (length : Int) (value : α) : ArrayM α :=
  let a : ArrayM α := { elems := [], cap := 0, pol := false }
  let r := a.populate length value
  if !r.1 then r.2.pollute else r.2

end ArrayM

/-- Source: DefaultCompare::perform, three-way comparison from operator <
(instantiated at int). -/
def defaultCompare (left right : Int) : Int :=
  if left < right then -1 else if right < left then 1 else 0

/-- Element read `_data[i]`; the C++ indexing is only ever executed
in bounds below, the default value is never read there. -/
def listGet [Inhabited α] (l : List α) (i : Int) : α := l.getD i.toNat default

/-- Source: Array::swap / utility::swap (three-move cyclic swap). -/
def listSwap [Inhabited α] (l : List α) (i j : Int) : List α :=
  (l.set i.toNat (listGet l j)).set j.toNat (listGet l i)

/-- Source: the scan `while (left <= last && comparer(_data[left], pivot) < 0)
++left;` of Array::partitionQuickSort.  `fuel` bounds the iteration count;
callers pass fuel exceeding the loop measure, so the loop always stops by
its own condition. -/
def scanLeft [Inhabited α] (cmp : α → α → Int) (l : List α) (piv : α) (last : Int) :
    Nat → Int → Int
  | 0, left => left
  | fuel + 1, left =>
    if left ≤ last ∧ cmp (listGet l left) piv < 0 then scanLeft cmp l piv last fuel (left + 1)
    else left

/-- Source: the scan `while (right > first && comparer(_data[right], pivot) >= 0)
--right;` of Array::partitionQuickSort, with a fuel bound as in scanLeft. -/
def scanRight [Inhabited α] (cmp : α → α → Int) (l : List α) (piv : α) (first : Int) :
    Nat → Int → Int
  | 0, right => right
  | fuel + 1, right =>
    if first < right ∧ 0 ≤ cmp (listGet l right) piv then scanRight cmp l piv first fuel (right - 1)
    else right

/-- Source: the outer `while (left <= right)` loop of
Array::partitionQuickSort.  The pivot `_data[first]` is stable during the
loop (swaps never touch index `first`), so it is re-read from the current
list each iteration exactly as the C++ reference re-reads it.  `fuel`
bounds the iteration count; the loop makes strict progress, so the
generous fuel passed by partitionQuickSort is sufficient for the concrete
runs proved below. -/
def partitionLoop [Inhabited α] (cmp : α → α → Int) (first last : Int) :
    Nat → List α → Int → Int → List α × Int
  | 0, l, _, right => (l, right)
  | fuel + 1, l, left, right =>
    if left ≤ right then
      let piv := listGet l first
      let left2 := scanLeft cmp l piv last ((last + 1 - left).toNat + 1) left
      let right2 := scanRight cmp l piv first ((right - first).toNat + 1) right
      let l2 := if left2 < right2 then listSwap l left2 right2 else l
      partitionLoop cmp first last fuel l2 left2 right2
    else (l, right)

/-- Source: Array::partitionQuickSort. -/
def partitionQuickSort [Inhabited α] (cmp : α → α → Int) (l : List α) (first last : Int) :
    List α × Int :=
  let r := partitionLoop cmp first last ((last + 2 - first).toNat + 2) l (first + 1) last
  let l2 := r.1
  let right := r.2
  if first ≠ right then (listSwap l2 first right, right) else (l2, right)

/-- Source: Array::recursiveQuickSort.  `fuel` bounds the recursion depth;
the range shrinks at every level, so the fuel passed by quickSort below is
sufficient for the concrete runs proved below. -/
def recursiveQuickSort [Inhabited α] (cmp : α → α → Int) :
    Nat → List α → Int → Int → List α
  | 0, l, _, _ => l
  | fuel + 1, l, first, last =>
    if first < last then
      let middle := first + (last - first) / 2
      let l1 := if first ≠ middle then listSwap l first middle else l
      let r := partitionQuickSort cmp l1 first last
      let l3 := recursiveQuickSort cmp fuel r.1 first (r.2 - 1)
      recursiveQuickSort cmp fuel l3 (r.2 + 1) last
    else l

/-- Source: Array::quickSort.  The default arguments are first = 0 and
last = MaxLength. -/
def ArrayM.quickSort [Inhabited α] (a : ArrayM α) (cmp : α → α → Int)
    (first last : Int) : ArrayM α :=
  let length : Int := a.elems.length
  if 1 < length then
    let sorted := recursiveQuickSort cmp (a.elems.length + 2) a.elems
      (Containers.saturate first 0 (length - 1))
      (Containers.saturate last 0 (length - 1))
    { a with elems := sorted }
  else a

/-- Source: the `while (left <= right)` loop of Array::binarySearch.  Both
operands of the division are non-negative whenever it is executed, so Lean
integer division agrees with the C++ one.  `fuel` bounds the iteration
count; the gap `right - left` shrinks at every iteration, so any fuel
above the initial gap is sufficient. -/
def binarySearchLoop [Inhabited α] (cmp : α → α → Int) (l : List α) (element : α) :
    Nat → Int → Int → Int
  | 0, _, _ => Containers.NotFound
  | fuel + 1, left, right =>
    if left ≤ right then
      let pivot := left + (right - left) / 2
      let res := cmp (listGet l pivot) element
      if res = 0 then pivot
      else if res < 0 then binarySearchLoop cmp l element fuel (pivot + 1) right
      else binarySearchLoop cmp l element fuel left (pivot - 1)
    else Containers.NotFound

/-- Source: Array::binarySearch(Element, Length, Length, Comparer).  The
default arguments are first = 0 and last = MaxLength. -/
def ArrayM.binarySearch [Inhabited α] (a : ArrayM α) (cmp : α → α → Int)
    (element : α) (first last : Int) : Int :=
  let length : Int := a.elems.length
  if length ≠ 0 then
    binarySearchLoop cmp a.elems element (a.elems.length + 1)
      (Containers.saturate first 0 (length - 1))
      (Containers.saturate last 0 (length - 1))
  else Containers.NotFound

/-! ## Flat containers (FlatMap, FlatSet)

A FlatMap of Key to Value is an Array of Pair (here modelled as K times V)
kept sorted by the comparer; a FlatSet is an Array of values kept sorted.
The comparer module stored in the container is passed explicitly. -/

/-- Source: the binary-search loop shared by FlatMap::search and
FlatSet::search: `f` compares the element at the probe index against the
searched key (three-way).  The probe `(left + right) / 2` only executes
with non-negative operands.  `fuel` bounds the iteration count; the gap
shrinks every iteration, so the fuel passed by the callers (length + 1)
always exceeds the iteration count. -/
def searchLoop [Inhabited α] (f : α → Int) (l : List α) : Nat → Int → Int → Bool × Int
  | 0, left, _ => (false, left)
  | fuel + 1, left, right =>
    if left ≤ right then
      let pivot := (left + right) / 2
      let res := f (listGet l pivot)
      if res < 0 then searchLoop f l fuel (pivot + 1) right
      else if 0 < res then searchLoop f l fuel left (pivot - 1)
      else (true, pivot)
    else (false, left)

/-- Source: FlatMap::search.  Starts with left = 0 and
right = length() - 1. -/
def FlatMap.search [Inhabited K] [Inhabited V] (cmp : K → K → Int)
    (pairs : ArrayM (K × V)) (key : K) : Bool × Int :=
  searchLoop (fun p => cmp p.1 key) pairs.elems (pairs.elems.length + 1)
    0 ((pairs.elems.length : Int) - 1)

/-- Source: FlatMap::add (upsert): on a hit the stored value is
overwritten in place, keeping the stored key; on a miss the pair is
inserted at the returned insertion index. -/
def FlatMap.add [Inhabited K] [Inhabited V] (cmp : K → K → Int)
    (pairs : ArrayM (K × V)) (key : K) (value : V) : Int × ArrayM (K × V) :=
  let r := FlatMap.search cmp pairs key
  if r.1 then
    (r.2, { pairs with
            elems := pairs.elems.set r.2.toNat ((listGet pairs.elems r.2).1, value) })
  else
    let ins := pairs.insert r.2 (key, value)
    if ins.1 then (r.2, ins.2) else (Containers.NotFound, ins.2)

/-- Source: FlatMap::erase(Key). -/
def FlatMap.erase [Inhabited K] [Inhabited V] (cmp : K → K → Int)
    (pairs : ArrayM (K × V)) (key : K) : Bool × ArrayM (K × V) :=
  let r := FlatMap.search cmp pairs key
  if r.1 then pairs.eraseAt r.2 else (false, pairs)

/-- Source: FlatSet::search. -/
def FlatSet.search [Inhabited V] (cmp : V → V → Int)
    (values : ArrayM V) (value : V) : Bool × Int :=
  searchLoop (fun v0 => cmp v0 value) values.elems (values.elems.length + 1)
    0 ((values.elems.length : Int) - 1)

/-- Source: FlatSet::add: inserts only when the value is absent. -/
def FlatSet.add [Inhabited V] (cmp : V → V → Int)
    (values : ArrayM V) (value : V) : Int × ArrayM V :=
  let r := FlatSet.search cmp values value
  if r.1 then (r.2, values)
  else
    let ins := values.insert r.2 value
    if ins.1 then (r.2, ins.2) else (Containers.NotFound, ins.2)

/-- Source: FlatSet::update: inserts when absent, otherwise overwrites the
stored value in place. -/
def FlatSet.update [Inhabited V] (cmp : V → V → Int)
    (values : ArrayM V) (value : V) : Bool × ArrayM V :=
  let r := FlatSet.search cmp values value
  if r.1 then (true, { values with elems := values.elems.set r.2.toNat value })
  else values.insert r.2 value

/-- Source: FlatSet::erase(Value). -/
def FlatSet.erase [Inhabited V] (cmp : V → V → Int)
    (values : ArrayM V) (value : V) : Bool × ArrayM V :=
  let r := FlatSet.search cmp values value
  if r.1 then values.eraseAt r.2 else (false, values)

/-- An operation of a FlatMap sequence: add (upsert) or erase by key. -/
inductive MapOp (K V : Type) where
  | add (key : K) (value : V)
  | erase (key : K)

/-- Runs a sequence of FlatMap operations starting from the empty map (the
head of the list is applied last). -/
def runMapOps [Inhabited K] [Inhabited V] (cmp : K → K → Int) :
    List (MapOp K V) → ArrayM (K × V)
  | [] => { elems := [], cap := 0, pol := false }
  | op :: ops =>
    let m := runMapOps cmp ops
    match op with
    | .add k v => (FlatMap.add cmp m k v).2
    | .erase k => (FlatMap.erase cmp m k).2

/-- An operation of a FlatSet sequence: add, update or erase by value. -/
inductive SetOp (V : Type) where
  | add (value : V)
  | update (value : V)
  | erase (value : V)

/-- Runs a sequence of FlatSet operations starting from the empty set (the
head of the list is applied last). -/
def runSetOps [Inhabited V] (cmp : V → V → Int) : List (SetOp V) → ArrayM V
  | [] => { elems := [], cap := 0, pol := false }
  | op :: ops =>
    let s := runSetOps cmp ops
    match op with
    | .add v => (FlatSet.add cmp s v).2
    | .update v => (FlatSet.update cmp s v).2
    | .erase v => (FlatSet.erase cmp s v).2

/-- A three-way comparer that is a strict weak ordering: irreflexive,
with flipped arguments negating the sign, transitive on the strict part
and transitive on incomparability.  This is the precondition the spec
places on the active comparer. -/
structure IsSWO {α : Type} (cmp : α → α → Int) : Prop where
  refl : ∀ a, cmp a a = 0
  flip : ∀ a b, cmp a b < 0 ↔ 0 < cmp b a
  lt_trans : ∀ a b c, cmp a b < 0 → cmp b c < 0 → cmp a c < 0
  eq_trans : ∀ a b c, cmp a b = 0 → cmp b c = 0 → cmp a c = 0

/-- Keys strictly ascending per the comparer (the sorted invariant of
FlatMap). -/
def sortedKeys (cmp : K → K → Int) (l : List (K × V)) : Prop :=
  l.Pairwise (fun p q => cmp p.1 q.1 < 0)

/-- Values strictly ascending per the comparer (the sorted invariant of
FlatSet). -/
def sortedVals (cmp : V → V → Int) (l : List V) : Prop :=
  l.Pairwise (fun a b => cmp a b < 0)

/-! ## String (TinyTRL_Strings.h / .cpp)

The 64-bit build is modelled.  The bit-packed representation of String is
decoded into its observable fields: `longB` is longBit(); for long
strings `cap` holds the capacity word without the pollute bit (zero
exactly for wrapped strings) and `len` the length word without the long
bit; for short strings `len` is the length stored in the length byte and
`cap` is kept at zero (the capacity of a short string is implicit);
`pol` is the pollute bit of the respective representation.  `buf` is the
byte buffer that data() points at (the inline bytes for short strings,
the heap or wrapped buffer otherwise), modelled as a total function from
byte offset to byte value.  Memory allocation is modelled as always
succeeding. -/

/-- Model of the String object state, see the section comment. -/
structure TString where
  longB : Bool
  buf : Nat → Nat
  cap : Nat
  len : Nat
  pol : Bool

namespace TString

/-- Source: String::MaxLength (64-bit build, INT64_MAX - 1). -/
def MaxLength : Nat := 2 ^ 63 - 2

/-- Source: String::ShortCapacity (64-bit build). -/
def ShortCapacity : Nat := 23

/-- Source: String::NullLength. -/
def NullLength : Nat := 1

/-- Source: String::NotFound. -/
def NotFound : Int := -1

/-- Source: String::wrappedBit (meaningful only when longB is set). -/
def wrappedBit (s : TString) : Bool := s.cap == 0

/-- Source: String::wrapped. -/
def wrapped (s : TString) : Bool := s.longB && s.wrappedBit

/-- Source: String::pollute. -/
def pollute (s : TString) : TString := { s with pol := true }

/-- Source: String::capacity() getter: long owned strings report the
capacity word minus the terminator byte; wrapped strings report zero;
short strings report ShortCapacity - NullLength. -/
def capacityGet (s : TString) : Nat :=
  if s.longB then (if !s.wrappedBit then s.cap - NullLength else 0)
  else ShortCapacity - NullLength

/-- Effect of memcpy(dest + dst, src, count) where src enumerates the
copied bytes from offset zero; a zero count is the identity. -/
def writeRange (dest : Nat → Nat) (dst : Nat) (src : Nat → Nat) (count : Nat) : Nat → Nat :=
  fun i => if dst ≤ i ∧ i < dst + count then src (i - dst) else dest i

/-- Effect of memmove(buf + dst, buf + src, count) on a single buffer
(reads the pre-move contents, as memmove does). -/
def moveRange (buf : Nat → Nat) (dst src count : Nat) : Nat → Nat :=
  fun i => if dst ≤ i ∧ i < dst + count then buf (src + (i - dst)) else buf i

/-- Source: String::reallocate(capacity, copyNullLength).  Allocation
always succeeds in the model.  Representation conversions copy exactly
length + copyNullLength bytes (length + NullLength on the short-to-long
path); bytes of a fresh buffer beyond the copied prefix are modelled as
zero. -/
def reallocate (s : TString) (capacity : Nat) (copyNullLength : Nat) : TString :=
  if s.longB then
    if !s.wrappedBit then
      { s with cap := capacity }
    else
      if ShortCapacity < capacity then
        { s with buf := fun i => if i < s.len + copyNullLength then s.buf i else 0,
                 cap := capacity }
      else
        { longB := false, buf := fun i => if i < s.len + copyNullLength then s.buf i else 0,
          cap := 0, len := s.len, pol := s.pol }
  else
    { longB := true, buf := fun i => if i < s.len + NullLength then s.buf i else 0,
      cap := capacity, len := s.len, pol := s.pol }

/-- Source: String::internalCapacity: grows through the three-argument
math::computeNextCapacity seeded with ShortCapacity as the initial
capacity; the null terminator is not copied (copyNullLength 0). -/
def internalCapacity (s : TString) (capacity : Nat) : TString :=
  if s.capacityGet < capacity then
    s.reallocate (math.computeNextCapacity3 (capacity + NullLength) s.capacityGet ShortCapacity) 0
  else s

/-- Source: String::writeLength: stores the new length, keeping the
representation and pollute bits, and writes the terminating zero at
offset length. -/
def writeLength (s : TString) (length : Nat) : TString :=
  { s with len := length, buf := fun i => if i = length then 0 else s.buf i }

/-- Source: String::length(Length) setter.  Allocation succeeds in the
model, so the result is false only for an overflowing request. -/
def lengthSet (s : TString) (length : Nat) : Bool × TString :=
  if length ≤ MaxLength then
    if s.len ≠ length then (true, (s.internalCapacity length).writeLength length)
    else (true, s)
  else (false, s)

/-- Source: the default String constructor (all state words zero). -/
def emptyS : TString :=
  { longB := false, buf := fun _ => 0, cap := 0, len := 0, pol := false }

/-- Source: String::Fill(length, fill) (the length is a Length value,
here already non-negative). -/
def Fill (length : Nat) (fill : Nat) : TString :=
  if length ≤ MaxLength then
    if 0 < length then
      let r := emptyS.lengthSet length
      { r.2 with buf := writeRange r.2.buf 0 (fun _ => fill) length }
    else emptyS
  else emptyS.pollute

/-- Source: String::unwrap. -/
def unwrap (s : TString) : TString :=
  if !s.wrapped then s else s.reallocate (s.len + NullLength) NullLength

/-- Source: String::erase(position, length); NotFound (-1) as the length
selects the current length, negative positions shorten the range, and the
range is clamped to the current length. -/
def eraseS (s : TString) (position0 length0 : Int) : TString :=
  let lengthA : Int := if length0 = NotFound then (s.len : Int) else length0
  let lengthB : Int := max lengthA 0
  if lengthB ≠ 0 then
    let currentLength : Int := s.len
    let positionA : Int := if position0 < 0 then 0 else position0
    let lengthC : Int := if position0 < 0 then lengthB + position0 else lengthB
    let positionB : Int :=
      if currentLength < positionA + lengthC then min positionA currentLength else positionA
    let lengthD : Int :=
      if currentLength < positionA + lengthC then max (currentLength - positionA) 0 else lengthC
    if lengthD ≠ 0 then
      let s1 := s.unwrap
      let moveLength := currentLength - (positionB + lengthD)
      let movedBuf := moveRange s1.buf positionB.toNat (positionB + lengthD).toNat
        moveLength.toNat
      let s2 := if moveLength ≠ 0 then { s1 with buf := movedBuf } else s1
      s2.writeLength (currentLength - lengthD).toNat
    else s
  else s

/-- Source: String::shrink.  Allocation succeeds in the model, so the
reallocating path returns true; only wrapped strings are refused.  The
long-to-short conversion copies length + NullLength bytes into the inline
storage, carrying the pollute bit over; the inline bytes beyond the
copied prefix are modelled as zero. -/
def shrink (s : TString) : Bool × TString :=
  if !s.wrapped then
    if s.len ≠ 0 then
      if s.len + NullLength ≤ ShortCapacity then
        if s.longB then
          (true, { longB := false,
                   buf := fun i => if i < s.len + NullLength then s.buf i else 0,
                   cap := 0, len := s.len, pol := s.pol })
        else (true, s)
      else (true, s.reallocate (s.len + NullLength) NullLength)
    else (true, emptyS)
  else (false, s)

/-- Source: String::internalAppend(String const&). -/
def internalAppend (s sfx : TString) : Bool × TString :=
  let length := s.len
  let overflow := MaxLength - sfx.len < length
  let destLength := if overflow then MaxLength else length + sfx.len
  let suffixLength := if overflow then MaxLength - length else sfx.len
  let complete := !overflow
  if suffixLength ≠ 0 then
    let s1 := s.internalCapacity destLength
    let s2 := { s1 with buf := writeRange s1.buf length sfx.buf suffixLength }
    (complete, s2.writeLength destLength)
  else (complete, s)

/-- Source: String::append(String const&): pollutes on an incomplete
append or a polluted suffix argument. -/
def append (s sfx : TString) : TString :=
  let r := s.internalAppend sfx
  if !r.1 || sfx.pol then r.2.pollute else r.2

/-- Source: String::internalConcatenate(String const&, String const&);
the guarded memcpy calls of the source are unconditional here because a
zero-count writeRange is the identity. -/
def internalConcatenate (s pfx sfx : TString) : Bool × TString :=
  let prefixLength := pfx.len
  let overflow := MaxLength - prefixLength < sfx.len
  let destLength := if overflow then MaxLength else prefixLength + sfx.len
  let suffixLength := if overflow then MaxLength - prefixLength else sfx.len
  let complete := !overflow
  let s1 := s.internalCapacity destLength
  let s2 := { s1 with buf := writeRange s1.buf 0 pfx.buf prefixLength }
  let s3 := { s2 with buf := writeRange s2.buf prefixLength sfx.buf suffixLength }
  (complete, s3.writeLength destLength)

/-- Source: operator + (String const&, String const&): concatenates into
a fresh string and pollutes it on an incomplete concatenation or a
polluted operand. -/
def concatOp (pfx sfx : TString) : TString :=
  let r := emptyS.internalConcatenate pfx sfx
  if !r.1 || pfx.pol || sfx.pol then r.2.pollute else r.2

/-- Source: String::internalPrepend(String const&). -/
def internalPrepend (s pfx : TString) : Bool × TString :=
  if pfx.len ≠ 0 then
    let prefixLength := pfx.len
    let overflow := MaxLength - prefixLength < s.len
    let destLength := if overflow then MaxLength else s.len + prefixLength
    let length := if overflow then MaxLength - prefixLength else s.len
    let complete := !overflow
    let s1 := s.internalCapacity destLength
    let s2 :=
      if length ≠ 0 then { s1 with buf := moveRange s1.buf prefixLength 0 length } else s1
    let s3 := { s2 with buf := writeRange s2.buf 0 pfx.buf prefixLength }
    (complete, s3.writeLength destLength)
  else (true, s)

/-- Source: String::prepend(String const&): pollutes only on an
incomplete prepend; unlike append, the pollute bit of the string argument
is not consulted. -/
def prepend (s pfx : TString) : TString :=
  let r := s.internalPrepend pfx
  if !r.1 then r.2.pollute else r.2

end TString

/-- Scenario A start: Array of int constructed with {25, 100, 75}. -/
def scenarioA0 : ArrayM Int := ArrayM.ofList [25, 100, 75]

/-- Scenario A after addp(80), addp(200) and insertp(1, 5). -/
def scenarioA1 : ArrayM Int := ((scenarioA0.addp 80).addp 200).insertp 1 5

/-- Scenario A after quickSort() with its default arguments and default
comparer. -/
def scenarioA2 : ArrayM Int :=
  scenarioA1.quickSort defaultCompare 0 (Containers.MaxLength : Int)

/-! ### Streams: TinyTRL_Streams.cpp -/

/-- Source: Stream::Failure (TinyTRL_Streams.h), the sentinel -1. -/
def StreamFailure : Int := -1

/-- Source: the body of the `while (true)` loop of Stream::copy
(TinyTRL_Streams.cpp lines 111-146), fuel-based.  The behaviour of the
two streams is scripted: the k-th call to source.read returns the k-th
entry of `reads` (0 once exhausted, meaning end of stream) and the k-th
call to write returns the k-th entry of `writes` (0 once exhausted).
Each fuel step performs one loop iteration: the conditional read phase
followed by the write phase; because the read phase has two outcomes
that both fall through to the same write-phase code, that code appears
textually twice below.  The buffer contents, and the bytesToRead bound
passed to source.read, affect neither the returned count nor the status
and are not modelled.  The result pairs the returned totalBytesRead with
the destination pollute flag (true when pollute() was called inside the
loop). -/
def copyLoop (blockSize size : Int) :
    Nat → List Int → List Int → Int → Int → Bool → Int × Bool
  | 0, _, _, totalBytesRead, _, _ => (totalBytesRead, false)
  | fuel + 1, reads, writes, totalBytesRead, storedBytes, available =>
    if storedBytes < blockSize ∧ available = true then
      if reads.headD 0 < 0 then (totalBytesRead, true)
      else
        if storedBytes + reads.headD 0 ≠ 0 then
          if writes.headD 0 ≤ 0 then (totalBytesRead + reads.headD 0, true)
          else
            copyLoop blockSize size fuel reads.tail writes.tail
              (totalBytesRead + reads.headD 0)
              (storedBytes + reads.headD 0 - writes.headD 0)
              (decide (reads.headD 0 ≠ 0))
        else (totalBytesRead + reads.headD 0, false)
    else
      if storedBytes ≠ 0 then
        if writes.headD 0 ≤ 0 then (totalBytesRead, true)
        else
          copyLoop blockSize size fuel reads writes.tail totalBytesRead
            (storedBytes - writes.headD 0) available
      else (totalBytesRead, false)

/-- Source: Stream::copy lines 93-102, the clamping of blockSize against
the source stream position and size (size > 0 selects the requested size,
otherwise the original blockSize, and the result is clamped to be
non-negative). -/
def effectiveBlockSize (position sourceSize size blockSize0 : Int) : Int :=
  if 0 ≤ position ∧ 0 < sourceSize then
    max (min (min (sourceSize - position) blockSize0)
      (if 0 < size then size else blockSize0)) 0
  else blockSize0

/-- Source: Stream::copy (TinyTRL_Streams.cpp lines 89-154).  position
and sourceSize are source.position() and source.size(); malloc succeeds
in the model.  totalBytesRead starts at Failure and is set to 0 only
when the copy loop is entered; the final totalBytesRead == Failure check
of line 150 pollutes the destination whenever the loop never ran.  Fuel
reads.length + writes.length + 1 suffices: every iteration except the
last consumes at least one script entry (a write always, since the loop
only repeats after a successful write). -/
def streamCopy (position sourceSize size blockSize0 : Int)
    (reads writes : List Int) : Int × Bool :=
  let blockSize := effectiveBlockSize position sourceSize size blockSize0
  if 0 < blockSize ∧ 0 ≤ size then
    let r := copyLoop blockSize size (reads.length + writes.length + 1)
      reads writes 0 0 true
    if r.1 = StreamFailure then (r.1, true) else r
  else (StreamFailure, true)

/-! ## Theorems -/

/-! ### Facts about the capacity arithmetic -/

namespace math

theorem isPowerOfTwo_two_pow (k : Nat) : isPowerOfTwo (2 ^ k) = true := by
  unfold isPowerOfTwo
  have h : (2 : Nat) ^ k &&& (2 ^ k - 1) = 2 ^ k % 2 ^ k := Nat.and_pow_two_sub_one_eq_mod _ k
  simp [h, Nat.one_le_two_pow]

theorem testBit_top {n k : Nat} (h1 : 2 ^ k ≤ n) (h2 : n < 2 ^ (k + 1)) :
    n.testBit k = true := by
  rw [Nat.testBit_to_div_mod]
  have hd : n / 2 ^ k = 1 := by
    have ha : 1 * 2 ^ k ≤ n := by simpa using h1
    have hb : n < (1 + 1) * 2 ^ k := by
      have he : (1 + 1) * 2 ^ k = 2 ^ (k + 1) := by ring
      omega
    exact Nat.div_eq_of_lt_le ha hb
  simp [hd]

theorem land_pred_ge {v : Nat} (hv : 0 < v) (hnp : isPowerOfTwo v = false) :
    2 ^ Nat.log2 v ≤ v &&& (v - 1) := by
  have hk1 : 2 ^ Nat.log2 v ≤ v := Nat.log2_self_le hv.ne'
  have hk2 : v < 2 ^ (Nat.log2 v + 1) := Nat.lt_log2_self
  have hne : v ≠ 2 ^ Nat.log2 v := by
    intro h
    rw [h, isPowerOfTwo_two_pow] at hnp
    exact Bool.noConfusion hnp
  have t1 : v.testBit (Nat.log2 v) = true := testBit_top hk1 hk2
  have t2 : (v - 1).testBit (Nat.log2 v) = true := testBit_top (by omega) (by omega)
  have t3 : (v &&& (v - 1)).testBit (Nat.log2 v) = true := by
    rw [Nat.testBit_and, t1, t2]
    rfl
  exact Nat.testBit_implies_ge t3

theorem clearLowestLoop_ge (fuel : Nat) : ∀ v : Nat, 0 < v → v ≤ fuel →
    2 ^ Nat.log2 v ≤ clearLowestLoop fuel v := by
  induction fuel with
  | zero => intro v hv hle; omega
  | succ fuel ih =>
    intro v hv hle
    unfold clearLowestLoop
    by_cases hp : isPowerOfTwo v
    · simpa [hp] using Nat.log2_self_le hv.ne'
    · simp only [hp, if_neg, Bool.false_eq_true, not_false_eq_true, if_false]
      have hge := land_pred_ge hv (by simpa using hp)
      have hle2 : v &&& (v - 1) ≤ v - 1 := Nat.and_le_right
      have hpos : 0 < (v &&& (v - 1)) := lt_of_lt_of_le (Nat.two_pow_pos _) hge
      have hlog : Nat.log2 (v &&& (v - 1)) = Nat.log2 v := by
        have hub : (v &&& (v - 1)) < 2 ^ (Nat.log2 v + 1) :=
          lt_of_le_of_lt hle2 (by have := @Nat.lt_log2_self v; omega)
        have hup : Nat.log2 (v &&& (v - 1)) < Nat.log2 v + 1 :=
          (Nat.log2_lt hpos.ne').mpr hub
        have hlo : Nat.log2 v ≤ Nat.log2 (v &&& (v - 1)) :=
          (Nat.le_log2 hpos.ne').mpr hge
        omega
      calc 2 ^ Nat.log2 v = 2 ^ Nat.log2 (v &&& (v - 1)) := by rw [hlog]
        _ ≤ clearLowestLoop fuel (v &&& (v - 1)) := ih _ hpos (by omega)

theorem ceilPowerOfTwo_ge (v : Nat) : v ≤ ceilPowerOfTwo v := by
  unfold ceilPowerOfTwo
  by_cases h : (2 < v && !isPowerOfTwo v) = true
  · simp only [h, if_true]
    have hv3 : 2 < v := by
      have := Bool.and_elim_left h
      simpa using this
    have hsh : v <<< 1 = 2 * v := by
      rw [Nat.shiftLeft_eq]
      ring
    rw [hsh]
    have hpos : 0 < 2 * v := by omega
    have hge := clearLowestLoop_ge (2 * v) (2 * v) hpos (le_refl _)
    have hlog : Nat.log2 (2 * v) = Nat.log2 v + 1 := by
      have hk1 : 2 ^ Nat.log2 v ≤ v := Nat.log2_self_le (by omega)
      have hk2 : v < 2 ^ (Nat.log2 v + 1) := Nat.lt_log2_self
      have hlo : Nat.log2 v + 1 ≤ Nat.log2 (2 * v) := by
        apply (Nat.le_log2 (by omega)).mpr
        have : 2 ^ (Nat.log2 v + 1) = 2 * 2 ^ Nat.log2 v := by ring
        omega
      have hup : Nat.log2 (2 * v) < Nat.log2 v + 2 := by
        apply (Nat.log2_lt (by omega)).mpr
        have : 2 ^ (Nat.log2 v + 2) = 2 * 2 ^ (Nat.log2 v + 1) := by ring
        omega
      omega
    have hgt : v < 2 ^ Nat.log2 (2 * v) := by
      rw [hlog]
      exact Nat.lt_log2_self
    omega
  · simp [h]

theorem computeNextCapacity_gt (capacity : Nat) : capacity < computeNextCapacity capacity := by
  unfold computeNextCapacity
  by_cases h : (capacity < 16 || !isPowerOfTwo capacity) = true
  · simp only [h, if_true]
    have hge : capacity + 1 ≤ ceilPowerOfTwo (capacity + 1) := ceilPowerOfTwo_ge (capacity + 1)
    by_cases h2 : ceilPowerOfTwo (capacity + 1) - capacity < capacity / 3
    · simp only [h2, if_true]
      omega
    · simp only [h2, if_false]
      omega
  · have hfalse : (capacity < 16 || !isPowerOfTwo capacity) = false :=
      Bool.not_eq_true _ ▸ h
    rw [hfalse]
    have h16 : 16 ≤ capacity := by
      rcases Bool.or_eq_false_iff.mp hfalse with ⟨ha, _⟩
      simpa using ha
    simp only [Bool.false_eq_true, if_false]
    have : 8 ≤ capacity / 2 := by omega
    omega

theorem computeNextCapacity3_fresh (requested initial : Nat) :
    computeNextCapacity3 requested initial initial = requested := by
  unfold computeNextCapacity3
  simp

end math

/-- C3: the spec says that when the current capacity equals the initial
capacity, the three-argument computeNextCapacity falls back to the
single-argument variant applied to the requested capacity.  This is false:
the code returns the requested capacity itself in that case, while the
single-argument variant always returns a strictly bigger value.  Concretely,
computeNextCapacity3 5 0 0 = 5 whereas computeNextCapacity 5 = 8. -/
theorem C3_counterexample :
    math.computeNextCapacity3 5 0 0 ≠ math.computeNextCapacity 5 := by decide

/-- C3 (amended): for every requested capacity and every current capacity
equal to the initial capacity, the three-argument computeNextCapacity
returns the requested capacity unchanged; separately, the single-argument
computeNextCapacity always returns a capacity strictly bigger than its
argument. -/
theorem C3_fresh_growth_returns_requested :
    (∀ requested initial : Nat,
      math.computeNextCapacity3 requested initial initial = requested) ∧
    (∀ capacity : Nat, capacity < math.computeNextCapacity capacity) :=
  ⟨fun r i => math.computeNextCapacity3_fresh r i, math.computeNextCapacity_gt⟩

/-- C1: the claim asserts that after building and sorting the array the
call binarySearch(75) returns index 3.  It does not: on the sorted array
[5, 25, 75, 80, 100, 200], the element 75 sits at index 2 and the embedded
Array::binarySearch returns 2. -/
theorem C1_counterexample :
    ¬ (scenarioA2.binarySearch defaultCompare 75 0 (Containers.MaxLength : Int) = 3) := by
  decide

/-- C1 (amended): starting from an Array of int constructed with
{25, 100, 75}, then addp(80), addp(200), insertp(1, 5), the array holds
the element sequence [25, 5, 100, 75, 80, 200]; after quickSort() with the
default comparer it holds [5, 25, 75, 80, 100, 200]; and binarySearch(75)
on that sorted array returns index 2. -/
theorem C1_scenarioA :
    scenarioA1.elems = [25, 5, 100, 75, 80, 200] ∧
    scenarioA2.elems = [5, 25, 75, 80, 100, 200] ∧
    scenarioA2.binarySearch defaultCompare 75 0 (Containers.MaxLength : Int) = 2 := by
  decide

/-- C8: Array::erase(start, count) returns false when the array is empty,
when the clamped start lies at or beyond the end, or when the effective
count after folding in a negative start is non-positive, and in each such
case the array (elements, length, capacity and pollute bit) is left
entirely unchanged. -/
theorem C8_eraseRange_reject_is_noop {α : Type} (a : ArrayM α) (start count : Int)
    (h : a.elems.length = 0 ∨
         (if start < 0 then (0 : Int) else start) ≥ (a.elems.length : Int) ∨
         (if start < 0 then count + start else count) ≤ 0) :
    (a.eraseRange start count).1 = false ∧ (a.eraseRange start count).2 = a := by
  unfold ArrayM.eraseRange
  by_cases hlen : a.elems.length = 0
  · simp [hlen]
  · have hlenI : ¬ ((a.elems.length : Int) = 0) := by exact_mod_cast hlen
    have hrej : (if start < 0 then (0 : Int) else start) ≥ (a.elems.length : Int) ∨
        (if start < 0 then count + start else count) ≤ 0 := by
      rcases h with h0 | hs | hc
      · exact absurd h0 hlen
      · exact Or.inl hs
      · exact Or.inr hc
    simp [hlenI, hrej]

theorem listGet_eq_getElem {α : Type} [Inhabited α] (l : List α) (i : Int)
    (h0 : 0 ≤ i) (h : i < (l.length : Int)) :
    listGet l i = l[i.toNat] := by
  unfold listGet
  exact List.getD_eq_getElem l default (by omega)

theorem searchLoop_spec {α : Type} [Inhabited α] (f : α → Int) (l : List α)
    (hcl : ∀ i j : Int, 0 ≤ i → i ≤ j → j < (l.length : Int) →
        (f (listGet l j) < 0 → f (listGet l i) < 0) ∧
        (0 < f (listGet l i) → 0 < f (listGet l j))) :
    ∀ (fuel : Nat) (left right : Int),
      0 ≤ left → left ≤ right + 1 → right < (l.length : Int) →
      (right + 1 - left).toNat < fuel →
      (∀ i : Int, 0 ≤ i → i < left → f (listGet l i) < 0) →
      (∀ j : Int, right < j → j < (l.length : Int) → 0 < f (listGet l j)) →
      ((searchLoop f l fuel left right).1 = true →
          0 ≤ (searchLoop f l fuel left right).2 ∧
          (searchLoop f l fuel left right).2 < (l.length : Int) ∧
          f (listGet l (searchLoop f l fuel left right).2) = 0) ∧
      ((searchLoop f l fuel left right).1 = false →
          0 ≤ (searchLoop f l fuel left right).2 ∧
          (searchLoop f l fuel left right).2 ≤ (l.length : Int) ∧
          (∀ i : Int, 0 ≤ i → i < (searchLoop f l fuel left right).2 →
            f (listGet l i) < 0) ∧
          (∀ j : Int, (searchLoop f l fuel left right).2 ≤ j →
            j < (l.length : Int) → 0 < f (listGet l j))) := by
  intro fuel
  induction fuel with
  | zero => intro left right h0 h1 h2 hf _ _; omega
  | succ fuel ih =>
    intro left right h0 h1 h2 hf inv1 inv2
    by_cases hlr : left ≤ right
    case neg =>
      have heq : searchLoop f l (fuel + 1) left right = (false, left) := by
        simp only [searchLoop, if_neg hlr]
      rw [heq]
      refine ⟨by simp, fun _ => ⟨h0, by omega, inv1, fun j hj1 hj2 => inv2 j (by omega) hj2⟩⟩
    case pos =>
      have hp1 : left ≤ (left + right) / 2 := by
        rw [Int.le_ediv_iff_mul_le (by norm_num)]
        omega
      have hp2 : (left + right) / 2 ≤ right := by
        have hlt : (left + right) / 2 < right + 1 :=
          (Int.ediv_lt_iff_lt_mul (show (0 : Int) < 2 by norm_num)).mpr (by omega)
        omega
      by_cases hres : f (listGet l ((left + right) / 2)) < 0
      · have heq : searchLoop f l (fuel + 1) left right =
            searchLoop f l fuel ((left + right) / 2 + 1) right := by
          simp only [searchLoop, if_pos hlr, if_pos hres]
        rw [heq]
        apply ih ((left + right) / 2 + 1) right (by omega) (by omega) h2 (by omega)
        · intro i hi0 hil
          by_cases hiold : i < left
          · exact inv1 i hi0 hiold
          · exact (hcl i ((left + right) / 2) hi0 (by omega) (by omega)).1 hres
        · exact inv2
      · by_cases hres2 : 0 < f (listGet l ((left + right) / 2))
        · have heq : searchLoop f l (fuel + 1) left right =
              searchLoop f l fuel left ((left + right) / 2 - 1) := by
            simp only [searchLoop, if_pos hlr, if_neg hres, if_pos hres2]
          rw [heq]
          apply ih left ((left + right) / 2 - 1) h0 (by omega) (by omega) (by omega) inv1
          intro j hj1 hj2
          by_cases hjold : right < j
          · exact inv2 j hjold hj2
          · exact (hcl ((left + right) / 2) j (by omega) (by omega) hj2).2 hres2
        · have heq : searchLoop f l (fuel + 1) left right = (true, (left + right) / 2) := by
            simp only [searchLoop, if_pos hlr, if_neg hres, if_neg hres2]
          rw [heq]
          dsimp only
          refine ⟨fun _ => ⟨by omega, by omega, by omega⟩, by simp⟩

theorem IsSWO.eq_symm {α : Type} {cmp : α → α → Int} (h : IsSWO cmp) {a b : α}
    (hab : cmp a b = 0) : cmp b a = 0 := by
  have h1 := h.flip b a
  have h2 := h.flip a b
  omega

theorem IsSWO.subst_left {α : Type} {cmp : α → α → Int} (h : IsSWO cmp) {a b c : α}
    (hab : cmp a b = 0) (hbc : cmp b c < 0) : cmp a c < 0 := by
  rcases lt_trichotomy (cmp a c) 0 with hlt | heq | hgt
  · exact hlt
  · exfalso
    have hba : cmp b a = 0 := h.eq_symm hab
    have : cmp b c = 0 := h.eq_trans b a c hba heq
    omega
  · exfalso
    have hca : cmp c a < 0 := (h.flip c a).mpr hgt
    have hba : cmp b a < 0 := h.lt_trans b c a hbc hca
    have : 0 < cmp a b := (h.flip b a).mp hba
    omega

theorem IsSWO.subst_right {α : Type} {cmp : α → α → Int} (h : IsSWO cmp) {a b c : α}
    (hab : cmp a b = 0) (hca : cmp c a < 0) : cmp c b < 0 := by
  rcases lt_trichotomy (cmp c b) 0 with hlt | heq | hgt
  · exact hlt
  · exfalso
    have : cmp c a = 0 := h.eq_trans c b a heq (h.eq_symm hab)
    omega
  · exfalso
    have hbc : cmp b c < 0 := (h.flip b c).mpr hgt
    have hba : cmp b a < 0 := h.lt_trans b c a hbc hca
    have : 0 < cmp a b := (h.flip b a).mp hba
    omega

/-- Downward and upward closure of the three-way comparison against a
fixed key along a sorted list; `g` extracts the ordering key of an element
(the pair key for FlatMap, the element itself for FlatSet). -/
theorem closure_of_sorted {α K : Type} [Inhabited α] {cmp : K → K → Int} (h : IsSWO cmp)
    (g : α → K) (l : List α)
    (hs : l.Pairwise (fun a b => cmp (g a) (g b) < 0)) (key : K) :
    ∀ i j : Int, 0 ≤ i → i ≤ j → j < (l.length : Int) →
      (cmp (g (listGet l j)) key < 0 → cmp (g (listGet l i)) key < 0) ∧
      (0 < cmp (g (listGet l i)) key → 0 < cmp (g (listGet l j)) key) := by
  intro i j hi0 hij hjlen
  by_cases hieq : i = j
  · subst hieq
    exact ⟨id, id⟩
  · have hilt : i < j := lt_of_le_of_ne hij hieq
    have hrel : cmp (g (listGet l i)) (g (listGet l j)) < 0 := by
      rw [listGet_eq_getElem l i hi0 (by omega), listGet_eq_getElem l j (by omega) hjlen]
      exact List.pairwise_iff_getElem.mp hs i.toNat j.toNat (by omega) (by omega) (by omega)
    constructor
    · intro hj
      exact h.lt_trans _ _ _ hrel hj
    · intro hi
      have h1 : cmp key (g (listGet l i)) < 0 := (h.flip _ _).mpr hi
      have h2 : cmp key (g (listGet l j)) < 0 := h.lt_trans _ _ _ h1 hrel
      exact (h.flip _ _).mp h2

/-- Splicing an element whose key compares below everything from the
insertion point on and above everything before it preserves the sorted
invariant. -/
theorem insert_splice_sorted {α K : Type} [Inhabited α] {cmp : K → K → Int} (h : IsSWO cmp)
    (g : α → K) (l : List α)
    (hs : l.Pairwise (fun a b => cmp (g a) (g b) < 0)) (key : K) (e : α)
    (hge : g e = key) (pos : Nat) (hposlen : pos ≤ l.length)
    (hlo : ∀ i : Nat, ∀ hi : i < l.length, i < pos → cmp (g l[i]) key < 0)
    (hhi : ∀ j : Nat, ∀ hj : j < l.length, pos ≤ j → 0 < cmp (g l[j]) key) :
    (l.take pos ++ e :: l.drop pos).Pairwise (fun a b => cmp (g a) (g b) < 0) := by
  rw [List.pairwise_append]
  refine ⟨hs.sublist (List.take_sublist _ _), ?_, ?_⟩
  · rw [List.pairwise_cons]
    refine ⟨?_, hs.sublist (List.drop_sublist _ _)⟩
    intro b hb
    rcases List.mem_iff_getElem.mp hb with ⟨k, hk, hbk⟩
    have hklen : pos + k < l.length := by
      simp only [List.length_drop] at hk
      omega
    have hbeq : b = l[pos + k] := by
      rw [← hbk, List.getElem_drop]
    rw [hge, hbeq]
    exact (h.flip _ _).mpr (hhi (pos + k) hklen (by omega))
  · intro a ha b hb
    rcases List.mem_iff_getElem.mp ha with ⟨i, hi, hai⟩
    have hitake : i < pos ∧ i < l.length := by
      simp only [List.length_take] at hi
      omega
    have haeq : a = l[i] := by
      rw [← hai, List.getElem_take]
    rcases List.mem_cons.mp hb with hbe | hbd
    · subst hbe
      rw [haeq, hge]
      exact hlo i hitake.2 hitake.1
    · rcases List.mem_iff_getElem.mp hbd with ⟨k, hk, hbk⟩
      have hklen : pos + k < l.length := by
        simp only [List.length_drop] at hk
        omega
      have hbeq : b = l[pos + k] := by
        rw [← hbk, List.getElem_drop]
      rw [haeq, hbeq]
      exact List.pairwise_iff_getElem.mp hs i (pos + k) hitake.2 hklen (by omega)

/-- Overwriting an element with one whose key is equivalent under the
comparer preserves the sorted invariant. -/
theorem set_equiv_sorted {α K : Type} [Inhabited α] {cmp : K → K → Int} (h : IsSWO cmp)
    (g : α → K) (l : List α)
    (hs : l.Pairwise (fun a b => cmp (g a) (g b) < 0)) (pos : Nat) (e : α)
    (hp : pos < l.length) (hkey : cmp (g e) (g l[pos]) = 0) :
    (l.set pos e).Pairwise (fun a b => cmp (g a) (g b) < 0) := by
  rw [List.pairwise_iff_getElem] at hs ⊢
  intro i j hi hj hij
  simp only [List.length_set] at hi hj
  rw [List.getElem_set, List.getElem_set]
  split_ifs with hpi hpj hpj2
  · omega
  · subst hpi
    exact h.subst_left hkey (hs pos j hp hj hij)
  · subst hpj2
    exact h.subst_right (h.eq_symm hkey) (hs i pos hi hp hij)
  · exact hs i j hi hj hij

/-- A pairwise strictly ascending list has no two positions with
equivalent keys. -/
theorem pairwise_nodup {α K : Type} [Inhabited α] {cmp : K → K → Int} (h : IsSWO cmp)
    (g : α → K) (l : List α)
    (hs : l.Pairwise (fun a b => cmp (g a) (g b) < 0)) :
    ∀ i j : Nat, i ≠ j → ∀ (hi : i < l.length) (hj : j < l.length),
      cmp (g l[i]) (g l[j]) ≠ 0 := by
  intro i j hij hi hj
  rcases Nat.lt_or_ge i j with hlt | hge
  · have := List.pairwise_iff_getElem.mp hs i j hi hj hlt
    omega
  · have hjlt : j < i := by omega
    have hrel := List.pairwise_iff_getElem.mp hs j i hj hi hjlt
    have := (h.flip _ _).mp hrel
    omega

theorem set_getElem_self_eq {α : Type} (l : List α) (n : Nat) (h : n < l.length) :
    l.set n l[n] = l := by
  apply List.ext_getElem
  · simp
  · intro i h1 h2
    rw [List.getElem_set]
    split <;> simp_all

theorem saturate_eq {v lo hi : Int} (h1 : lo ≤ v) (h2 : v ≤ hi) :
    Containers.saturate v lo hi = v := by
  simp only [Containers.saturate]
  split_ifs <;> omega

/-- The elements after Array::insert: unchanged on the overflow failure or
spliced at the saturated index (which equals the requested one when it is
in range). -/
theorem insert_elems {α : Type} (a : ArrayM α) (index0 : Int) (e : α)
    (h0 : 0 ≤ index0) (hlen : index0 ≤ (a.elems.length : Int)) :
    (a.insert index0 e).2.elems = a.elems ∨
    (a.insert index0 e).2.elems =
      a.elems.take index0.toNat ++ e :: a.elems.drop index0.toNat := by
  simp only [ArrayM.insert]
  split
  · rw [saturate_eq h0 hlen]
    split
    · right
      rfl
    · right
      rfl
  · left
    rfl

theorem eraseAt_elems_sublist {α : Type} (a : ArrayM α) (idx : Int) :
    List.Sublist (a.eraseAt idx).2.elems a.elems := by
  simp only [ArrayM.eraseAt]
  split
  · exact List.eraseIdx_sublist _ _
  · exact List.Sublist.refl _

/-- Specialisation of searchLoop_spec to the search performed by
FlatMap::search over a sorted pair list. -/
theorem FlatMap.search_spec {K V : Type} [Inhabited K] [Inhabited V] {cmp : K → K → Int}
    (h : IsSWO cmp) (m : ArrayM (K × V)) (key : K) (hs : sortedKeys cmp m.elems) :
    ((FlatMap.search cmp m key).1 = true →
        0 ≤ (FlatMap.search cmp m key).2 ∧
        (FlatMap.search cmp m key).2 < (m.elems.length : Int) ∧
        cmp (listGet m.elems (FlatMap.search cmp m key).2).1 key = 0) ∧
    ((FlatMap.search cmp m key).1 = false →
        0 ≤ (FlatMap.search cmp m key).2 ∧
        (FlatMap.search cmp m key).2 ≤ (m.elems.length : Int) ∧
        (∀ i : Int, 0 ≤ i → i < (FlatMap.search cmp m key).2 →
          cmp (listGet m.elems i).1 key < 0) ∧
        (∀ j : Int, (FlatMap.search cmp m key).2 ≤ j → j < (m.elems.length : Int) →
          0 < cmp (listGet m.elems j).1 key)) :=
  searchLoop_spec (fun p => cmp p.1 key) m.elems
    (closure_of_sorted h Prod.fst m.elems hs key)
    (m.elems.length + 1) 0 ((m.elems.length : Int) - 1)
    le_rfl (by omega) (by omega) (by omega)
    (fun i hi0 hil => absurd hil (by omega))
    (fun j hj1 hj2 => absurd hj2 (by omega))

/-- Specialisation of searchLoop_spec to the search performed by
FlatSet::search over a sorted value list. -/
theorem FlatSet.search_spec_val {V : Type} [Inhabited V] {cmp : V → V → Int}
    (h : IsSWO cmp) (s : ArrayM V) (value : V) (hs : sortedVals cmp s.elems) :
    ((FlatSet.search cmp s value).1 = true →
        0 ≤ (FlatSet.search cmp s value).2 ∧
        (FlatSet.search cmp s value).2 < (s.elems.length : Int) ∧
        cmp (listGet s.elems (FlatSet.search cmp s value).2) value = 0) ∧
    ((FlatSet.search cmp s value).1 = false →
        0 ≤ (FlatSet.search cmp s value).2 ∧
        (FlatSet.search cmp s value).2 ≤ (s.elems.length : Int) ∧
        (∀ i : Int, 0 ≤ i → i < (FlatSet.search cmp s value).2 →
          cmp (listGet s.elems i) value < 0) ∧
        (∀ j : Int, (FlatSet.search cmp s value).2 ≤ j → j < (s.elems.length : Int) →
          0 < cmp (listGet s.elems j) value)) :=
  searchLoop_spec (fun v0 => cmp v0 value) s.elems
    (closure_of_sorted h (fun v0 => v0) s.elems hs value)
    (s.elems.length + 1) 0 ((s.elems.length : Int) - 1)
    le_rfl (by omega) (by omega) (by omega)
    (fun i hi0 hil => absurd hil (by omega))
    (fun j hj1 hj2 => absurd hj2 (by omega))

theorem FlatMap.add_sorted {K V : Type} [Inhabited K] [Inhabited V] {cmp : K → K → Int}
    (h : IsSWO cmp) (m : ArrayM (K × V)) (key : K) (value : V)
    (hs : sortedKeys cmp m.elems) :
    sortedKeys cmp (FlatMap.add cmp m key value).2.elems := by
  have hspec := FlatMap.search_spec h m key hs
  by_cases hfound : (FlatMap.search cmp m key).1 = true
  · obtain ⟨hpos0, hposlen, _⟩ := hspec.1 hfound
    have heq : (FlatMap.add cmp m key value).2.elems =
        m.elems.set (FlatMap.search cmp m key).2.toNat
          ((listGet m.elems (FlatMap.search cmp m key).2).1, value) := by
      simp only [FlatMap.add, hfound, if_true]
    rw [heq]
    apply set_equiv_sorted h Prod.fst m.elems hs _ _ (by omega)
    rw [listGet_eq_getElem _ _ hpos0 hposlen]
    exact h.refl _
  · obtain ⟨hpos0, hposlen, hlo, hhi⟩ := hspec.2 (by simpa using hfound)
    have heq : (FlatMap.add cmp m key value).2.elems =
        (m.insert (FlatMap.search cmp m key).2 (key, value)).2.elems := by
      simp only [FlatMap.add, hfound, if_false, Bool.false_eq_true]
      split <;> rfl
    rw [heq]
    rcases insert_elems m (FlatMap.search cmp m key).2 (key, value) hpos0 hposlen with
      hsame | hsplice
    · rw [hsame]
      exact hs
    · rw [hsplice]
      apply insert_splice_sorted h Prod.fst m.elems hs key (key, value) rfl _ (by omega)
      · intro i hi hipos
        have := hlo (i : Int) (by omega) (by omega)
        rwa [listGet_eq_getElem _ _ (by omega) (by omega)] at this
      · intro j hj hjpos
        have := hhi (j : Int) (by omega) (by omega)
        rwa [listGet_eq_getElem _ _ (by omega) (by omega)] at this

theorem FlatMap.erase_sorted {K V : Type} [Inhabited K] [Inhabited V] {cmp : K → K → Int}
    (m : ArrayM (K × V)) (key : K) (hs : sortedKeys cmp m.elems) :
    sortedKeys cmp (FlatMap.erase cmp m key).2.elems := by
  apply hs.sublist
  simp only [FlatMap.erase]
  split
  · exact eraseAt_elems_sublist _ _
  · exact List.Sublist.refl _

theorem FlatSet.add_sorted_val {V : Type} [Inhabited V] {cmp : V → V → Int}
    (h : IsSWO cmp) (s : ArrayM V) (value : V) (hs : sortedVals cmp s.elems) :
    sortedVals cmp (FlatSet.add cmp s value).2.elems := by
  have hspec := FlatSet.search_spec_val h s value hs
  by_cases hfound : (FlatSet.search cmp s value).1 = true
  · have heq : (FlatSet.add cmp s value).2.elems = s.elems := by
      simp only [FlatSet.add, hfound, if_true]
    rw [heq]
    exact hs
  · obtain ⟨hpos0, hposlen, hlo, hhi⟩ := hspec.2 (by simpa using hfound)
    have heq : (FlatSet.add cmp s value).2.elems =
        (s.insert (FlatSet.search cmp s value).2 value).2.elems := by
      simp only [FlatSet.add, hfound, if_false, Bool.false_eq_true]
      split <;> rfl
    rw [heq]
    rcases insert_elems s (FlatSet.search cmp s value).2 value hpos0 hposlen with
      hsame | hsplice
    · rw [hsame]
      exact hs
    · rw [hsplice]
      apply insert_splice_sorted h (fun v0 => v0) s.elems hs value value rfl _ (by omega)
      · intro i hi hipos
        have := hlo (i : Int) (by omega) (by omega)
        rwa [listGet_eq_getElem _ _ (by omega) (by omega)] at this
      · intro j hj hjpos
        have := hhi (j : Int) (by omega) (by omega)
        rwa [listGet_eq_getElem _ _ (by omega) (by omega)] at this

theorem FlatSet.update_sorted {V : Type} [Inhabited V] {cmp : V → V → Int}
    (h : IsSWO cmp) (s : ArrayM V) (value : V) (hs : sortedVals cmp s.elems) :
    sortedVals cmp (FlatSet.update cmp s value).2.elems := by
  have hspec := FlatSet.search_spec_val h s value hs
  by_cases hfound : (FlatSet.search cmp s value).1 = true
  · obtain ⟨hpos0, hposlen, hcmp⟩ := hspec.1 hfound
    have heq : (FlatSet.update cmp s value).2.elems =
        s.elems.set (FlatSet.search cmp s value).2.toNat value := by
      simp only [FlatSet.update, hfound, if_true]
    rw [heq]
    apply set_equiv_sorted h (fun v0 => v0) s.elems hs _ _ (by omega)
    have := h.eq_symm hcmp
    rwa [listGet_eq_getElem _ _ hpos0 hposlen] at this
  · obtain ⟨hpos0, hposlen, hlo, hhi⟩ := hspec.2 (by simpa using hfound)
    have heq : (FlatSet.update cmp s value).2.elems =
        (s.insert (FlatSet.search cmp s value).2 value).2.elems := by
      simp only [FlatSet.update, hfound, if_false, Bool.false_eq_true]
    rw [heq]
    rcases insert_elems s (FlatSet.search cmp s value).2 value hpos0 hposlen with
      hsame | hsplice
    · rw [hsame]
      exact hs
    · rw [hsplice]
      apply insert_splice_sorted h (fun v0 => v0) s.elems hs value value rfl _ (by omega)
      · intro i hi hipos
        have := hlo (i : Int) (by omega) (by omega)
        rwa [listGet_eq_getElem _ _ (by omega) (by omega)] at this
      · intro j hj hjpos
        have := hhi (j : Int) (by omega) (by omega)
        rwa [listGet_eq_getElem _ _ (by omega) (by omega)] at this

theorem FlatSet.erase_sorted_val {V : Type} [Inhabited V] {cmp : V → V → Int}
    (s : ArrayM V) (value : V) (hs : sortedVals cmp s.elems) :
    sortedVals cmp (FlatSet.erase cmp s value).2.elems := by
  apply hs.sublist
  simp only [FlatSet.erase]
  split
  · exact eraseAt_elems_sublist _ _
  · exact List.Sublist.refl _

theorem runMapOps_sorted {K V : Type} [Inhabited K] [Inhabited V] {cmp : K → K → Int}
    (h : IsSWO cmp) (ops : List (MapOp K V)) :
    sortedKeys cmp (runMapOps cmp ops).elems := by
  induction ops with
  | nil => exact List.Pairwise.nil
  | cons op ops ih =>
    cases op with
    | add k v => exact FlatMap.add_sorted h _ k v ih
    | erase k => exact FlatMap.erase_sorted _ k ih

theorem runSetOps_sorted {V : Type} [Inhabited V] {cmp : V → V → Int}
    (h : IsSWO cmp) (ops : List (SetOp V)) :
    sortedVals cmp (runSetOps cmp ops).elems := by
  induction ops with
  | nil => exact List.Pairwise.nil
  | cons op ops ih =>
    cases op with
    | add v => exact FlatSet.add_sorted_val h _ v ih
    | update v => exact FlatSet.update_sorted h _ v ih
    | erase v => exact FlatSet.erase_sorted_val _ v ih

/-- Adding an existing key leaves the key sequence of the map entirely
unchanged: the stored value is overwritten in place. -/
theorem FlatMap.add_hit_keys {K V : Type} [Inhabited K] [Inhabited V] {cmp : K → K → Int}
    (h : IsSWO cmp) (m : ArrayM (K × V)) (key : K) (value : V)
    (hs : sortedKeys cmp m.elems) (hfound : (FlatMap.search cmp m key).1 = true) :
    (FlatMap.add cmp m key value).2.elems.map Prod.fst = m.elems.map Prod.fst := by
  obtain ⟨hpos0, hposlen, _⟩ := (FlatMap.search_spec h m key hs).1 hfound
  have heq : (FlatMap.add cmp m key value).2.elems =
      m.elems.set (FlatMap.search cmp m key).2.toNat
        ((listGet m.elems (FlatMap.search cmp m key).2).1, value) := by
    simp only [FlatMap.add, hfound, if_true]
  rw [heq, List.map_set, listGet_eq_getElem _ _ hpos0 hposlen]
  have hb1 : (FlatMap.search cmp m key).2.toNat < m.elems.length := by omega
  have hb2 : (FlatMap.search cmp m key).2.toNat < (m.elems.map Prod.fst).length := by
    rw [List.length_map]
    omega
  have hmap : ((m.elems[(FlatMap.search cmp m key).2.toNat]).1 : K) =
      (m.elems.map Prod.fst)[(FlatMap.search cmp m key).2.toNat] := by
    rw [List.getElem_map]
  rw [hmap, set_getElem_self_eq]

/-- Source: DefaultCompare instantiated at int is a strict weak
ordering. -/
theorem defaultCompare_isSWO : IsSWO defaultCompare where
  refl a := by simp [defaultCompare]
  flip a b := by
    simp only [defaultCompare]
    split_ifs <;> omega
  lt_trans a b c h1 h2 := by
    simp only [defaultCompare] at *
    split_ifs at * <;> omega
  eq_trans a b c h1 h2 := by
    simp only [defaultCompare] at *
    split_ifs at * <;> omega

theorem reallocate_pol (s : TString) (c n : Nat) : (s.reallocate c n).pol = s.pol := by
  simp only [TString.reallocate]
  split_ifs <;> rfl

theorem reallocate_len (s : TString) (c n : Nat) : (s.reallocate c n).len = s.len := by
  simp only [TString.reallocate]
  split_ifs <;> rfl

theorem reallocate_buf (s : TString) (c n : Nat) (i : Nat) (hi : i < s.len) :
    (s.reallocate c n).buf i = s.buf i := by
  simp only [TString.reallocate]
  split_ifs <;> (try rfl) <;> dsimp only <;> rw [if_pos (by omega)]

theorem internalCapacity_pol (s : TString) (c : Nat) :
    (s.internalCapacity c).pol = s.pol := by
  simp only [TString.internalCapacity]
  split
  · exact reallocate_pol ..
  · rfl

theorem internalCapacity_len (s : TString) (c : Nat) :
    (s.internalCapacity c).len = s.len := by
  simp only [TString.internalCapacity]
  split
  · exact reallocate_len ..
  · rfl

theorem internalCapacity_buf (s : TString) (c : Nat) (i : Nat) (hi : i < s.len) :
    (s.internalCapacity c).buf i = s.buf i := by
  simp only [TString.internalCapacity]
  split
  · exact reallocate_buf _ _ _ i hi
  · rfl

theorem internalPrepend_pol (s pfx : TString) : (s.internalPrepend pfx).2.pol = s.pol := by
  simp only [TString.internalPrepend]
  split
  · simp only [TString.writeLength]
    split <;> split <;> simp [internalCapacity_pol]
  · rfl

theorem internalAppend_overflow (a b : TString) (ha : a.len ≤ TString.MaxLength)
    (hovf : TString.MaxLength - b.len < a.len) :
    (a.internalAppend b).1 = false ∧
    (a.internalAppend b).2.len = TString.MaxLength ∧
    (∀ i : Nat, i < a.len → (a.internalAppend b).2.buf i = a.buf i) ∧
    (∀ i : Nat, a.len ≤ i → i < TString.MaxLength →
      (a.internalAppend b).2.buf i = b.buf (i - a.len)) := by
  have hrw1 : (if TString.MaxLength - b.len < a.len then TString.MaxLength
      else a.len + b.len) = TString.MaxLength := if_pos hovf
  have hrw2 : (if TString.MaxLength - b.len < a.len then TString.MaxLength - a.len
      else b.len) = TString.MaxLength - a.len := if_pos hovf
  have hrw3 : (decide (TString.MaxLength - b.len < a.len)) = true := decide_eq_true hovf
  simp only [TString.internalAppend, hrw1, hrw2, hrw3, Bool.not_true]
  by_cases hz : TString.MaxLength - a.len = 0
  · rw [if_neg (show ¬(TString.MaxLength - a.len ≠ 0) by omega)]
    refine ⟨rfl, by dsimp only; omega, fun i hi => rfl,
      fun i hi1 hi2 => absurd hi2 (by omega)⟩
  · rw [if_pos (show TString.MaxLength - a.len ≠ 0 from hz)]
    refine ⟨rfl, rfl, ?_, ?_⟩
    · intro i hi
      simp only [TString.writeLength, TString.writeRange]
      rw [if_neg (by omega), if_neg (by omega)]
      exact internalCapacity_buf a TString.MaxLength i hi
    · intro i hi1 hi2
      simp only [TString.writeLength, TString.writeRange]
      rw [if_neg (by omega), if_pos (by omega)]

theorem internalConcatenate_overflow (s a b : TString) (ha : a.len ≤ TString.MaxLength)
    (hovf : TString.MaxLength - a.len < b.len) :
    (s.internalConcatenate a b).1 = false ∧
    (s.internalConcatenate a b).2.len = TString.MaxLength ∧
    (∀ i : Nat, i < a.len → (s.internalConcatenate a b).2.buf i = a.buf i) ∧
    (∀ i : Nat, a.len ≤ i → i < TString.MaxLength →
      (s.internalConcatenate a b).2.buf i = b.buf (i - a.len)) := by
  have hrw1 : (if TString.MaxLength - a.len < b.len then TString.MaxLength
      else a.len + b.len) = TString.MaxLength := if_pos hovf
  have hrw2 : (if TString.MaxLength - a.len < b.len then TString.MaxLength - a.len
      else b.len) = TString.MaxLength - a.len := if_pos hovf
  have hrw3 : (decide (TString.MaxLength - a.len < b.len)) = true := decide_eq_true hovf
  simp only [TString.internalConcatenate, hrw1, hrw2, hrw3, Bool.not_true]
  refine ⟨trivial, rfl, ?_, ?_⟩
  · intro i hi
    simp only [TString.writeLength, TString.writeRange]
    rw [if_neg (by omega), if_neg (by omega), if_pos (by omega)]
    simp
  · intro i hi1 hi2
    simp only [TString.writeLength, TString.writeRange]
    rw [if_neg (by omega), if_pos (by omega)]

/-- C4: a String append or concatenation whose mathematically required
length exceeds MaxLength truncates the result to exactly MaxLength
characters (the prefix kept whole, the suffix cut off at the limit),
performs the truncated write and leaves the result polluted; it never
aborts (the operations are total). -/
theorem C4_overflow_truncates (a b : TString) (ha : a.len ≤ TString.MaxLength)
    (hb : b.len ≤ TString.MaxLength) (hover : TString.MaxLength < a.len + b.len) :
    ((a.append b).len = TString.MaxLength ∧ (a.append b).pol = true ∧
      (∀ i : Nat, i < a.len → (a.append b).buf i = a.buf i) ∧
      (∀ i : Nat, a.len ≤ i → i < TString.MaxLength →
        (a.append b).buf i = b.buf (i - a.len))) ∧
    ((TString.concatOp a b).len = TString.MaxLength ∧
      (TString.concatOp a b).pol = true ∧
      (∀ i : Nat, i < a.len → (TString.concatOp a b).buf i = a.buf i) ∧
      (∀ i : Nat, a.len ≤ i → i < TString.MaxLength →
        (TString.concatOp a b).buf i = b.buf (i - a.len))) := by
  constructor
  · obtain ⟨h1, h2, h3, h4⟩ := internalAppend_overflow a b ha (by omega)
    have heq : a.append b = (a.internalAppend b).2.pollute := by
      simp [TString.append, h1]
    rw [heq]
    exact ⟨h2, rfl, h3, h4⟩
  · obtain ⟨h1, h2, h3, h4⟩ := internalConcatenate_overflow TString.emptyS a b ha (by omega)
    have heq : TString.concatOp a b = (TString.emptyS.internalConcatenate a b).2.pollute := by
      simp [TString.concatOp, h1]
    rw [heq]
    exact ⟨h2, rfl, h3, h4⟩

/-- C4 witness: two concrete strings whose combined length exceeds
MaxLength (the buffers are constant functions). -/
theorem C4_witness :
    ((TString.mk true (fun _ => 65) (TString.MaxLength + 1) TString.MaxLength false).len ≤
        TString.MaxLength ∧
      (TString.mk false (fun _ => 66) 0 3 false).len ≤ TString.MaxLength ∧
      TString.MaxLength <
        (TString.mk true (fun _ => 65) (TString.MaxLength + 1) TString.MaxLength false).len +
          (TString.mk false (fun _ => 66) 0 3 false).len) ∧
    ((TString.mk true (fun _ => 65) (TString.MaxLength + 1) TString.MaxLength
        false).append (TString.mk false (fun _ => 66) 0 3 false)).len =
      TString.MaxLength :=
  ⟨⟨by decide, by decide, by decide⟩,
    (C4_overflow_truncates _ _ (by decide) (by decide) (by decide)).1.1⟩

theorem capacityReq_elems {α : Type} (a : ArrayM α) (c : Int) :
    (a.capacityReq c).elems = a.elems := by
  simp only [ArrayM.capacityReq]
  split <;> rfl

theorem populateWriteOffsets_replicate (length : Nat) (count : Nat) :
    ArrayM.populateWriteOffsets length count = List.replicate count length := by
  induction count with
  | zero => rfl
  | succ n ih =>
    unfold ArrayM.populateWriteOffsets
    rw [ih, ← List.replicate_succ']

/-- C9: Array::populate with a positive count leaves the live elements
and the length unchanged (every copy is constructed into the single slot
at offset length(), recorded by populateWriteOffsets, and the length is
never advanced); the bool-converted return value is false exactly when the
length before the call was zero; and consequently the
Array(length, value) constructor always produces an empty, polluted
array.  The hypotheses are the type range of count (Length is int64_t)
and the positivity assumed by the claim. -/
theorem C9_populate_fixed_slot {α : Type} (a : ArrayM α) (count : Int) (value : α)
    (hpos : 0 < count) (hmax : count ≤ (Containers.MaxLength : Int)) :
    (a.populate count value).2.elems = a.elems ∧
    ArrayM.populateWriteOffsets a.elems.length count.toNat =
      List.replicate count.toNat a.elems.length ∧
    ((a.populate count value).1 = false ↔ a.elems.length = 0) ∧
    (ArrayM.mkFill count value : ArrayM α).elems = [] ∧
    (ArrayM.mkFill count value : ArrayM α).pol = true := by
  have hmaxc : max count 0 = count := by omega
  refine ⟨?_, populateWriteOffsets_replicate _ _, ?_, ?_⟩
  · unfold ArrayM.populate
    simp only [hmaxc]
    split
    · exact capacityReq_elems _ _
    · rfl
  · unfold ArrayM.populate
    simp only [hmaxc]
    split
    · simp
    · rename_i hgt
      constructor
      · intro hfalse
        simp [Containers.NotFound] at hfalse
      · intro hzero
        exfalso
        rw [hzero] at hgt
        omega
  · have hres : ((ArrayM.mk ([] : List α) 0 false).populate count value).1 = false := by
      unfold ArrayM.populate
      simp only [hmaxc]
      have hcond : ((ArrayM.mk ([] : List α) 0 false).elems.length : Int) ≤
          (Containers.MaxLength : Int) - count := by
        simp only [ArrayM.mk, List.length_nil, Nat.cast_zero]
        omega
      rw [if_pos hcond]
      simp
    have helems : ((ArrayM.mk ([] : List α) 0 false).populate count value).2.elems = [] := by
      unfold ArrayM.populate
      simp only [hmaxc]
      split
      · rw [capacityReq_elems]
      · rfl
    simp only [ArrayM.mkFill, ArrayM.pollute, hres, Bool.not_false, if_true]
    exact ⟨helems, trivial⟩

/-- C9 witness: a concrete array of one element populated with two
copies. -/
theorem C9_witness :
    ((0 : Int) < 2 ∧ (2 : Int) ≤ (Containers.MaxLength : Int)) ∧
    (((ArrayM.mk [7] 1 false : ArrayM Int).populate 2 9).2.elems = [7] ∧
      ArrayM.populateWriteOffsets (ArrayM.mk [7] 1 false : ArrayM Int).elems.length (2 : Int).toNat =
        List.replicate (2 : Int).toNat (ArrayM.mk [7] 1 false : ArrayM Int).elems.length ∧
      (((ArrayM.mk [7] 1 false : ArrayM Int).populate 2 9).1 = false ↔
        (ArrayM.mk [7] 1 false : ArrayM Int).elems.length = 0) ∧
      (ArrayM.mkFill 2 9 : ArrayM Int).elems = [] ∧
      (ArrayM.mkFill 2 9 : ArrayM Int).pol = true) :=
  ⟨⟨by decide, by decide⟩,
    C9_populate_fixed_slot (ArrayM.mk [7] 1 false) 2 9 (by decide) (by decide)⟩

/-- C7: for every sequence of FlatMap::add / FlatSet::add /
FlatSet::update operations interleaved with erase, with a comparer that is
a strict weak ordering, the container holds keys in strictly ascending
order per the comparer, no two positions ever hold equivalent keys, and
adding an existing key overwrites the stored value in place, leaving the
key sequence unchanged. -/
theorem C7_flat_sorted_nodup {K V : Type} [Inhabited K] [Inhabited V]
    (cmp : K → K → Int) (h : IsSWO cmp) :
    (∀ ops : List (MapOp K V),
        sortedKeys cmp (runMapOps cmp ops).elems ∧
        ∀ i j : Nat, i ≠ j →
          ∀ (hi : i < (runMapOps cmp ops).elems.length)
            (hj : j < (runMapOps cmp ops).elems.length),
          cmp ((runMapOps cmp ops).elems[i]).1
            ((runMapOps cmp ops).elems[j]).1 ≠ 0) ∧
    (∀ ops : List (SetOp K),
        sortedVals cmp (runSetOps cmp ops).elems ∧
        ∀ i j : Nat, i ≠ j →
          ∀ (hi : i < (runSetOps cmp ops).elems.length)
            (hj : j < (runSetOps cmp ops).elems.length),
          cmp ((runSetOps cmp ops).elems[i]) ((runSetOps cmp ops).elems[j]) ≠ 0) ∧
    (∀ (m : ArrayM (K × V)) (key : K) (value : V), sortedKeys cmp m.elems →
        (FlatMap.search cmp m key).1 = true →
        (FlatMap.add cmp m key value).2.elems.map Prod.fst = m.elems.map Prod.fst) :=
  ⟨fun ops => ⟨runMapOps_sorted h ops,
      fun i j hij hi hj => pairwise_nodup h Prod.fst _ (runMapOps_sorted h ops) i j hij hi hj⟩,
   fun ops => ⟨runSetOps_sorted h ops,
      fun i j hij hi hj =>
        pairwise_nodup h (fun v0 => v0) _ (runSetOps_sorted h ops) i j hij hi hj⟩,
   fun m key value hs hf => FlatMap.add_hit_keys h m key value hs hf⟩

/-- C7 witness: a concrete interleaved run of map operations with the
default int comparer, whose sorted invariant follows by applying the
theorem. -/
theorem C7_witness :
    sortedKeys defaultCompare
      (runMapOps (K := Int) (V := Int) defaultCompare
        [MapOp.add 5 50, MapOp.erase 2, MapOp.add 3 30, MapOp.add 5 51,
         MapOp.add 9 90, MapOp.erase 5]).elems :=
  ((C7_flat_sorted_nodup defaultCompare defaultCompare_isSWO).1 _).1

/-- C5: for every non-polluted string A and polluted string B, both
A + B and A.append(B) produce a polluted result, regardless of the
byte-level outcome. -/
theorem C5_pollute_propagation (a b : TString) (ha : a.pol = false) (hb : b.pol = true) :
    (TString.concatOp a b).pol = true ∧ (a.append b).pol = true := by
  constructor
  · simp [TString.concatOp, TString.pollute, hb]
  · simp [TString.append, TString.pollute, hb]

/-- C5 witness: concrete short strings, the suffix polluted. -/
theorem C5_witness :
    ((TString.mk false (fun _ => 65) 0 2 false).pol = false ∧
      (TString.mk false (fun _ => 66) 0 1 true).pol = true) ∧
    ((TString.concatOp (TString.mk false (fun _ => 65) 0 2 false)
        (TString.mk false (fun _ => 66) 0 1 true)).pol = true ∧
      ((TString.mk false (fun _ => 65) 0 2 false).append
        (TString.mk false (fun _ => 66) 0 1 true)).pol = true) :=
  ⟨⟨rfl, rfl⟩, C5_pollute_propagation _ _ rfl rfl⟩

/-- C10: prepend(String) does not propagate the pollute bit of its
argument: a non-polluted target prepended with a polluted string stays
non-polluted whenever the byte-level prepend succeeds.  This matches the
code of String::prepend, which tests only the internalPrepend result
(unlike append, concatenate, copy, replace and insert, which also test
the argument). -/
theorem C10_prepend_no_pollute_propagation (a b : TString) (ha : a.pol = false)
    (hb : b.pol = true) (hok : (a.internalPrepend b).1 = true) :
    (a.prepend b).pol = false := by
  simp only [TString.prepend, hok]
  simp [internalPrepend_pol, ha]

/-- C10 witness: a concrete short target prepended with a concrete
polluted short string. -/
theorem C10_witness :
    ((TString.mk false (fun _ => 65) 0 2 false).pol = false ∧
      (TString.mk false (fun _ => 66) 0 1 true).pol = true ∧
      ((TString.mk false (fun _ => 65) 0 2 false).internalPrepend
        (TString.mk false (fun _ => 66) 0 1 true)).1 = true) ∧
    ((TString.mk false (fun _ => 65) 0 2 false).prepend
      (TString.mk false (fun _ => 66) 0 1 true)).pol = false :=
  ⟨⟨rfl, rfl, by decide⟩, C10_prepend_no_pollute_propagation _ _ rfl rfl (by decide)⟩

/-- C6: the claim bounds the inline round trip at 23 bytes (the 64-bit
short capacity).  It fails at length 23: String::shrink converts long to
short only when length + NullLength ≤ ShortCapacity, i.e. for at most 22
bytes of content.  Concretely, a string grown long by Fill(30) and erased
down to length 23 still has the long bit set after shrink(). -/
theorem C6_counterexample :
    ((TString.Fill 30 65).eraseS 23 TString.NotFound).len = 23 ∧
    (((TString.Fill 30 65).eraseS 23 TString.NotFound).shrink).2.longB = true := by
  decide

/-- C6 (amended): for every owned long-representation string with
length + 1 at most ShortCapacity (that is, at most 22 content bytes on
64-bit platforms rather than the claimed 23), shrink() succeeds,
returns the string to the inline short representation, and the bytes
observed through data() (content plus terminator) are unchanged
byte-for-byte.  The terminator hypothesis is the String invariant that
data() is null-terminated. -/
theorem C6_shrink_roundtrip (s : TString) (hlong : s.longB = true) (hwr : s.cap ≠ 0)
    (hlen : s.len + TString.NullLength ≤ TString.ShortCapacity)
    (hterm : s.buf s.len = 0) :
    (s.shrink).1 = true ∧ (s.shrink).2.longB = false ∧
    ∀ i : Nat, i < s.len + TString.NullLength → (s.shrink).2.buf i = s.buf i := by
  have hwrapped : s.wrapped = false := by
    simp [TString.wrapped, TString.wrappedBit, hwr]
  simp only [TString.shrink, hwrapped, Bool.not_false, if_true]
  by_cases hz : s.len = 0
  · rw [if_neg (show ¬(s.len ≠ 0) by omega)]
    refine ⟨rfl, rfl, ?_⟩
    intro i hi
    have hi0 : i = 0 := by
      simp only [TString.NullLength] at hi
      omega
    subst hi0
    rw [← hz, hterm]
    rfl
  · rw [if_pos hz, if_pos hlen, if_pos hlong]
    refine ⟨rfl, rfl, ?_⟩
    intro i hi
    exact if_pos hi

/-- C6 witness: a concrete five-byte long string shrinks back to the
inline representation with its bytes intact. -/
theorem C6_witness :
    ((TString.mk true (fun i => if i < 5 then 65 else 0) 16 5 false).longB = true ∧
      (TString.mk true (fun i => if i < 5 then 65 else 0) 16 5 false).cap ≠ 0 ∧
      (TString.mk true (fun i => if i < 5 then 65 else 0) 16 5 false).len +
          TString.NullLength ≤ TString.ShortCapacity ∧
      (TString.mk true (fun i => if i < 5 then 65 else 0) 16 5 false).buf
          (TString.mk true (fun i => if i < 5 then 65 else 0) 16 5 false).len = 0) ∧
    (((TString.mk true (fun i => if i < 5 then 65 else 0) 16 5 false).shrink).1 = true ∧
      ((TString.mk true (fun i => if i < 5 then 65 else 0) 16 5 false).shrink).2.longB =
        false ∧
      ∀ i : Nat,
        i < (TString.mk true (fun i => if i < 5 then 65 else 0) 16 5 false).len +
            TString.NullLength →
        ((TString.mk true (fun i => if i < 5 then 65 else 0) 16 5 false).shrink).2.buf i =
          (TString.mk true (fun i => if i < 5 then 65 else 0) 16 5 false).buf i) :=
  ⟨⟨rfl, by decide, by decide, by decide⟩,
    C6_shrink_roundtrip _ rfl (by decide) (by decide) (by decide)⟩

/-- C8 witness: a concrete rejected erase, start beyond the end. -/
theorem C8_witness :
    ((ArrayM.mk [1, 2] 3 false).elems.length = 0 ∨
       (if (5 : Int) < 0 then (0 : Int) else 5) ≥ (((ArrayM.mk [1, 2] 3 false).elems.length : Int)) ∨
       (if (5 : Int) < 0 then (1 : Int) + 5 else 1) ≤ 0) ∧
    (((ArrayM.mk [1, 2] 3 false).eraseRange 5 1).1 = false ∧
      ((ArrayM.mk [1, 2] 3 false).eraseRange 5 1).2 = ArrayM.mk [1, 2] 3 false) :=
  ⟨by decide, C8_eraseRange_reject_is_noop (ArrayM.mk [1, 2] 3 false) 5 1 (by decide)⟩

/-! ### Stream::copy -/

/-- Once the running totalBytesRead is non-negative, every exit of the
copy loop returns a non-negative count: error exits return the total
accumulated before the failing call, and the read phase only ever adds a
non-negative bytesRead. -/
theorem copyLoop_total_nonneg (blockSize size : Int) :
    ∀ (fuel : Nat) (reads writes : List Int) (total stored : Int)
      (available : Bool), 0 ≤ total →
      0 ≤ (copyLoop blockSize size fuel reads writes total stored available).1 := by
  intro fuel
  induction fuel with
  | zero =>
    intro reads writes total stored available htot
    simpa [copyLoop] using htot
  | succ fuel ih =>
    intro reads writes total stored available htot
    simp only [copyLoop]
    split_ifs with h1 h2 h3 h4 h5 h6 <;> (try dsimp only) <;>
      first
        | exact htot
        | (exact ih _ _ _ _ _ (by omega))
        | omega

/-- C2 counterexample: the very first source.read fails (returns -1), so
no bytes at all were transferred, yet copy returns 0, not Failure.  (The
concrete call: source at position 0 with size 10, requested size 0,
blockSize 8192; the destination is polluted, but the returned count is 0
while the claim requires Failure whenever nothing was transferred.) -/
theorem C2_counterexample :
    streamCopy 0 10 0 8192 [-1] [] = (0, true) ∧ (0 : Int) ≠ StreamFailure := by
  constructor
  · rfl
  · decide

/-- C2: Stream::copy never returns Failure once the transfer loop is
entered: every error exit (negative read, non-positive write) pollutes
the destination and returns the accumulated non-negative byte count —
even when that count is 0 because the very first operation failed.
Failure is returned exactly when the loop is never entered, i.e. when
the effective block size is non-positive or the requested size is
negative (then the destination is polluted too). -/
theorem C2_copy_failure_iff_loop_not_entered (position sourceSize size
    blockSize0 : Int) (reads writes : List Int) :
    (¬(0 < effectiveBlockSize position sourceSize size blockSize0 ∧ 0 ≤ size) →
      streamCopy position sourceSize size blockSize0 reads writes =
        (StreamFailure, true)) ∧
    ((0 < effectiveBlockSize position sourceSize size blockSize0 ∧ 0 ≤ size) →
      0 ≤ (streamCopy position sourceSize size blockSize0 reads writes).1 ∧
      (streamCopy position sourceSize size blockSize0 reads writes).1 ≠
        StreamFailure ∧
      streamCopy position sourceSize size blockSize0 reads writes =
        copyLoop (effectiveBlockSize position sourceSize size blockSize0) size
          (reads.length + writes.length + 1) reads writes 0 0 true) := by
  constructor
  · intro h
    simp only [streamCopy]
    rw [if_neg h]
  · intro h
    have hr : 0 ≤ (copyLoop (effectiveBlockSize position sourceSize size
        blockSize0) size (reads.length + writes.length + 1) reads writes
        0 0 true).1 :=
      copyLoop_total_nonneg _ _ _ _ _ _ _ _ le_rfl
    have hne : (copyLoop (effectiveBlockSize position sourceSize size
        blockSize0) size (reads.length + writes.length + 1) reads writes
        0 0 true).1 ≠ StreamFailure := by
      simp only [StreamFailure]
      omega
    have hcopy : streamCopy position sourceSize size blockSize0 reads writes =
        copyLoop (effectiveBlockSize position sourceSize size blockSize0) size
          (reads.length + writes.length + 1) reads writes 0 0 true := by
      simp only [streamCopy]
      rw [if_pos h, if_neg hne]
    exact ⟨hcopy ▸ hr, hcopy ▸ hne, hcopy⟩

/-- C2 witness: a transfer of two 4-byte blocks followed by end of
stream; copy returns 8 and leaves the destination clean. -/
theorem C2_witness :
    ((0 : Int) < effectiveBlockSize 0 8 0 4 ∧ (0 : Int) ≤ 0) ∧
    (0 ≤ (streamCopy 0 8 0 4 [4, 4, 0] [4, 4]).1 ∧
      (streamCopy 0 8 0 4 [4, 4, 0] [4, 4]).1 ≠ StreamFailure ∧
      streamCopy 0 8 0 4 [4, 4, 0] [4, 4] =
        copyLoop (effectiveBlockSize 0 8 0 4) 0 ([4, 4, 0].length +
          [4, 4].length + 1) [4, 4, 0] [4, 4] 0 0 true) :=
  ⟨by decide,
    (C2_copy_failure_iff_loop_not_entered 0 8 0 4 [4, 4, 0] [4, 4]).2 (by decide)⟩

end TRL
